import Mathlib

/-!
Verification of the schema evolution and validation engine of the
PlaneQuery/OpenAirframes repository (`src/contributions/update_schema.py`,
`src/contributions/schema.py`, `src/contributions/regenerate_pr_schema.py`),
as a shallow embedding in Lean 4.

JSON values are modelled by `JVal`; Python dicts are association lists that
keep insertion order, exactly as Python 3.7+ dicts do.  Non-integer JSON
numbers play no role in any definition or claim treated here and are omitted
from the model.  A Python function that can raise an exception is modelled
with `Option` (`none` = the exception propagates).
-/

/-- A JSON value as decoded by `json.loads`: objects are ordered
association lists (Python dicts preserve insertion order). -/
inductive JVal where
  | null : JVal
  | bool (b : Bool) : JVal
  | int (n : Int) : JVal
  | str (s : String) : JVal
  | arr (elems : List JVal) : JVal
  | obj (fields : List (String × JVal)) : JVal

/-- Python dict read `d.get(k)` / `d[k]`: the value at the first matching
key, if any. -/
def getKey? {κ α : Type} [BEq κ] : List (κ × α) → κ → Option α
  | [], _ => none
  | p :: fs, k => if p.1 == k then some p.2 else getKey? fs k

/-- Python dict write `d[k] = v`: update the value in place if the key is
present (keeping its position), otherwise append the new pair at the end.
(Python dict keys are unique, so replacing the first occurrence is the
in-place update.) -/
def setKey {κ α : Type} [BEq κ] : List (κ × α) → κ → α → List (κ × α)
  | [], k, v => [(k, v)]
  | p :: fs, k, v => if p.1 == k then (p.1, v) :: fs else p :: setKey fs k v

/-- Does the character list `n` occur at the start of `h`? -/
def startsList (n h : List Char) : Bool :=
  match n, h with
  | [], _ => true
  | _ :: _, [] => false
  | c :: cs, d :: ds => c == d && startsList cs ds

/-- Does the character list `n` occur anywhere inside `h`? (Python `in` on
strings.) -/
def containsList (n : List Char) : List Char → Bool
  | [] => startsList n []
  | c :: t => startsList n (c :: t) || containsList n t

/-- Python `x in v` for a string `x`: key membership on a dict, element
membership on a list (a string equals only an equal string), substring test
on a string; `none` models the `TypeError` raised on other values. -/
def jmem (tag : String) (v : JVal) : Option Bool :=
  match v with
  | JVal.obj fs => some (fs.any (fun p => p.1 == tag))
  | JVal.arr xs => some (xs.any (fun x => match x with
      | JVal.str s => s == tag
      | _ => false))
  | JVal.str s => some (containsList tag.toList s.toList)
  | _ => none

/-- Python `v.get(k, d)` on a JSON value: `none` models the
`AttributeError` raised when `v` is not a dict. -/
def dictGetD (v : JVal) (k : String) (d : JVal) : Option JVal :=
  match v with
  | JVal.obj fs => some ((getKey? fs k).getD d)
  | _ => none

/-- Embeds `get_existing_tag_definitions` (update_schema.py:23-26):
`schema.get("properties", \x7b\x7d).get("tags", \x7b\x7d).get("properties", \x7b\x7d)`. -/
def get_existing_tag_definitions (schema : JVal) : Option JVal := do
  let p ← dictGetD schema "properties" (JVal.obj [])
  let t ← dictGetD p "tags" (JVal.obj [])
  dictGetD t "properties" (JVal.obj [])

/-- The `type_map` dict of `type_name_to_json_schema` (update_schema.py:31-39). -/
def type_map : List (String × JVal) := [
  ("string", JVal.obj [("type", JVal.str "string")]),
  ("integer", JVal.obj [("type", JVal.str "integer")]),
  ("number", JVal.obj [("type", JVal.str "number")]),
  ("boolean", JVal.obj [("type", JVal.str "boolean")]),
  ("null", JVal.obj [("type", JVal.str "null")]),
  ("array", JVal.obj [("type", JVal.str "array"),
      ("items", JVal.obj [("$ref", JVal.str "#/$defs/tagScalar")])]),
  ("object", JVal.obj [("type", JVal.str "object"),
      ("additionalProperties", JVal.obj [("$ref", JVal.str "#/$defs/tagScalar")])])]

/-- Embeds `type_name_to_json_schema` (update_schema.py:29-40). -/
def type_name_to_json_schema (type_name : String) : JVal :=
  (getKey? type_map type_name).getD (JVal.obj [("$ref", JVal.str "#/$defs/tagValue")])

/-- Python tuple comparison on `(name, type)` pairs, as used by
`sorted(tag_registry.items())`. -/
def pairLe (a b : String × String) : Prop :=
  a.1 < b.1 ∨ (a.1 = b.1 ∧ a.2 ≤ b.2)

instance pairLeDec : DecidableRel pairLe := fun a b => by
  unfold pairLe
  infer_instance

/-- Embeds Python `sorted` on the registry's `(name, type)` pairs
(update_schema.py:62).  Python's sort is a stable ascending sort; `pairLe`
is a total antisymmetric decidable order (proved below), so every sorted
permutation of the input is unique and `insertionSort` computes exactly
what `sorted` returns. -/
def pySorted (l : List (String × String)) : List (String × String) :=
  List.insertionSort pairLe l

/-- The version-stamped title set by `generate_new_schema` (update_schema.py:58). -/
def new_title (new_version : Nat) : String :=
  "PlaneQuery Aircraft Community Submission (v" ++ toString new_version ++ ")"

/-- The property-name pattern string set by `generate_new_schema`
(update_schema.py:71): `^[a-z][a-z0-9_]\x7b0,63\x7d$`. -/
def tag_name_pattern : String := "^[a-z][a-z0-9_]\x7b0,63\x7d$"

/-- The description string set by `generate_new_schema` (update_schema.py:68). -/
def tags_description : String :=
  "Community-defined tags. New tags can be added, but must use consistent types."

/-- The dict literal assigned to `schema["properties"]["tags"]`
(update_schema.py:66-76). -/
def tags_block (tag_properties : List (String × JVal)) : JVal :=
  JVal.obj [
    ("type", JVal.str "object"),
    ("description", JVal.str tags_description),
    ("propertyNames", JVal.obj [
      ("type", JVal.str "string"),
      ("pattern", JVal.str tag_name_pattern)]),
    ("properties", JVal.obj tag_properties),
    ("additionalProperties", JVal.obj [("$ref", JVal.str "#/$defs/tagValue")])]

/-- Embeds `generate_new_schema` (update_schema.py:43-78).  The deep copy
`json.loads(json.dumps(base_schema))` is the identity on the value level
(its heap-level content is treated separately below); the title write and
the `schema["properties"]["tags"]` write are in-place dict updates.
`none` models the `KeyError`/`TypeError` raised when the base schema is not
a dict or `schema["properties"]` is missing or not a dict. -/
def generate_new_schema (base_schema : JVal) (tag_registry : List (String × String))
    (new_version : Nat) : Option JVal :=
  match base_schema with
  | JVal.obj fs =>
    let fs1 := setKey fs "title" (JVal.str (new_title new_version))
    match getKey? fs1 "properties" with
    | some (JVal.obj props) =>
      let tag_properties := (pySorted tag_registry).map
        (fun p => (p.1, type_name_to_json_schema p.2))
      some (JVal.obj (setKey fs1 "properties"
        (JVal.obj (setKey props "tags" (tags_block tag_properties)))))
    | _ => none
  | _ => none

/-- The list comprehension of `check_for_new_tags` (update_schema.py:89):
`[tag for tag in tag_registry if tag not in existing_tags]`, with `in`
modelled by `jmem`. -/
def newTagsLoop (tag_registry : List (String × String)) (existing : JVal) :
    Option (List String) :=
  match tag_registry with
  | [] => some []
  | p :: rest => do
    let b ← jmem p.1 existing
    let l ← newTagsLoop rest existing
    pure (if b then l else p.1 :: l)

/-- Embeds `check_for_new_tags` (update_schema.py:81-89). -/
def check_for_new_tags (tag_registry : List (String × String)) (current_schema : JVal) :
    Option (List String) := do
  let existing ← get_existing_tag_definitions current_schema
  newTagsLoop tag_registry existing

/-- Modelled from the spec: the Schema Store (section 4.3 / 6), "the set of
all persisted Schema Documents, keyed by version".  The store helpers
(`SCHEMAS_DIR`, `get_schema_path`, `get_latest_schema_version`, the
versioned `load_schema`) are imported by `update_schema.py` from `.schema`
but are absent from the sources; one JSON document per version, named
deterministically by version number, is a finite map version to document. -/
structure SchemaStore where
  docs : List (Nat × JVal)

/-- Modelled from the spec: `get_latest_schema_version` / `latest_version()`,
"returns the greatest version number among persisted schema documents;
fails with NotFoundError if none exist".  `none` models the raised
`NotFoundError`. -/
def get_latest_schema_version (st : SchemaStore) : Option Nat :=
  (st.docs.map (fun p => p.1)).max?

/-- Modelled from the spec: `load_schema(version)` / `load(version)`,
"fails with NotFoundError if the requested version does not exist". -/
def load_schema (st : SchemaStore) (version : Nat) : Option JVal :=
  getKey? st.docs version

/-- Models the inline write `with open(new_schema_path, "w") as f:
json.dump(new_schema, f, ...)` (update_schema.py:123-125 and
regenerate_pr_schema.py:59-60): mode `"w"` creates the file or truncates an
existing one, i.e. insert-or-overwrite, with no conflict check. -/
def write_schema_file (st : SchemaStore) (version : Nat) (doc : JVal) : SchemaStore :=
  ⟨setKey st.docs version doc⟩

/-- Embeds `create_new_schema_version` (update_schema.py:92-127), with the
spec-modelled store passed explicitly instead of living on disk. -/
def create_new_schema_version (st : SchemaStore) (tag_registry : List (String × String))
    (check_only : Bool) : Option ((Option Nat × List String) × SchemaStore) := do
  let current_version ← get_latest_schema_version st
  let current_schema ← load_schema st current_version
  let new_tags ← check_for_new_tags tag_registry current_schema
  if new_tags.isEmpty then
    pure ((none, []), st)
  else if check_only then
    pure ((some (current_version + 1), new_tags), st)
  else do
    let new_schema ← generate_new_schema current_schema tag_registry (current_version + 1)
    pure ((some (current_version + 1), new_tags),
      write_schema_file st (current_version + 1) new_schema)

/-- An error object yielded by the external `jsonschema` library's
`Draft202012Validator.iter_errors`: the instance path (its components
already rendered by `str(p)`) and the human-readable message.  The
validator itself is an external collaborator, so it enters the embedding
as an abstract function. -/
abbrev VError : Type := List String × String

/-- The `data` argument of `validate_submission`: a single submission dict
or a list of submissions; `isinstance(data, list)` decides which. -/
inductive SubmissionInput where
  | one (d : JVal) : SubmissionInput
  | many (l : List JVal) : SubmissionInput

/-- The line `submissions = data if isinstance(data, list) else [data]`
(schema.py:39). -/
def subsOf : SubmissionInput → List JVal
  | SubmissionInput.one d => [d]
  | SubmissionInput.many l => l

/-- The path rendering of schema.py:47:
`".".join(str(p) for p in error.path) if error.path else "(root)"`. -/
def pathText (p : List String) : String :=
  if p.isEmpty then "(root)" else String.intercalate "." p

/-- Embeds `validate_submission` (schema.py:22-50), abstracting the
external `jsonschema` validator (already configured with its schema) as
`iterErrors`. -/
def validate_submission (iterErrors : JVal → List VError) (data : SubmissionInput) :
    List String :=
  let submissions := subsOf data
  submissions.enum.flatMap (fun is =>
    let pfx := if submissions.length > 1 then "[" ++ toString is.1 ++ "] " else ""
    (iterErrors is.2).map (fun e => pfx ++ pathText e.1 ++ ": " ++ e.2))

/-- Python `json.loads` hands `validate_submission` whatever it parsed; a
parsed JSON array is a list, hence a batch. -/
def toInput (v : JVal) : SubmissionInput :=
  match v with
  | JVal.arr xs => SubmissionInput.many xs
  | d => SubmissionInput.one d

/-- Embeds `parse_and_validate` (schema.py:117-134).  `json.loads` is an
external library function, abstracted as `parseJson`; `Except.error e`
models `json.JSONDecodeError` with `str(e) = e`. -/
def parse_and_validate (parseJson : String → Except String JVal)
    (iterErrors : JVal → List VError) (json_str : String) :
    Option JVal × List String :=
  match parseJson json_str with
  | Except.error e => (none, ["Invalid JSON: " ++ e])
  | Except.ok d => (some d, validate_submission iterErrors (toInput d))

/-- Python `\s` in ASCII mode: space, tab, newline, carriage return,
vertical tab, form feed. -/
def isWsChar (c : Char) : Bool :=
  c == ' ' || c == '\t' || c == '\n' || c == '\r' || c == '\x0b' || c == '\x0c'

/-- Python `str.strip()`: remove leading and trailing whitespace. -/
def stripChars (s : List Char) : List Char :=
  ((s.dropWhile isWsChar).reverse.dropWhile isWsChar).reverse

/-- Match a literal at the head of the input, returning the remainder. -/
def dropLit : List Char → List Char → Option (List Char)
  | [], s => some s
  | _ :: _, [] => none
  | c :: cs, d :: ds => if c == d then dropLit cs ds else none

/-- Backtracking candidates of greedy `\s*` at the head of the input:
every remainder after consuming a whitespace prefix, longest consumed
first (the regex engine's preference order). -/
def wsSplitsGreedy : List Char → List (List Char)
  | [] => [[]]
  | c :: cs => if isWsChar c then wsSplitsGreedy cs ++ [c :: cs] else [c :: cs]

/-- Backtracking candidates of lazy `[\s\S]*?`: every (consumed, rest)
split, shortest consumed first (the lazy preference order). -/
def anySplitsLazy : List Char → List (List Char × List Char)
  | [] => [([], [])]
  | c :: cs => ([], c :: cs) :: (anySplitsLazy cs).map (fun p => (c :: p.1, p.2))

/-- Backtracking candidates of greedy `(?:json)?`: with the literal
consumed first when it is present. -/
def optJson (s : List Char) : List (List Char) :=
  match dropLit "json".toList s with
  | some s' => [s', s]
  | none => [s]

/-- All matches of the code-block pattern of schema.py:68 anchored at the
head of the input, in the regex engine's backtracking preference order,
each giving capture group 1.  The pattern is
`### Submission JSON\s*\n\s*` then three backticks, `(?:json)?\s*\n`,
the lazy group `([\s\S]*?)`, and `\n\s*` then three backticks. -/
def matchCodeblockCands (s : List Char) : List (List Char) := do
  let s1 ← (dropLit "### Submission JSON".toList s).toList
  let s2 ← wsSplitsGreedy s1
  let s3 ← (dropLit ['\n'] s2).toList
  let s4 ← wsSplitsGreedy s3
  let s5 ← (dropLit "```".toList s4).toList
  let s6 ← optJson s5
  let s7 ← wsSplitsGreedy s6
  let s8 ← (dropLit ['\n'] s7).toList
  let gp ← anySplitsLazy s8
  let s10 ← (dropLit ['\n'] gp.2).toList
  let s11 ← wsSplitsGreedy s10
  let _ ← (dropLit "```".toList s11).toList
  pure gp.1

/-- The preferred match of the code-block pattern at the head of the
input, if any. -/
def matchCodeblockAt (s : List Char) : Option (List Char) :=
  (matchCodeblockCands s).head?

/-- Python `re.search`: try every start position left to right and return
the first position's preferred match. -/
def searchFrom (m : List Char → Option (List Char)) (s : List Char) :
    Option (List Char) :=
  match m s with
  | some g => some g
  | none =>
    match s with
    | [] => none
    | _ :: rest => searchFrom m rest

/-- Strategy (a) of `extract_json_from_issue_body` (schema.py:67-71):
`re.search(pattern_codeblock, body)` followed by `match.group(1).strip()`. -/
def extractCodeblock (body : String) : Option String :=
  (searchFrom matchCodeblockAt body.toList).map (fun g => String.mk (stripChars g))

/-- Character class `[\[\x7b]` opening a JSON-looking span. -/
def isOpenBr (c : Char) : Bool := c == '[' || c == '\x7b'

/-- Character class `[\]\x7d]` closing a JSON-looking span. -/
def isCloseBr (c : Char) : Bool := c == ']' || c == '\x7d'

/-- The lookahead `(?=\n###|\n\n###|$)` of the raw pattern, where Python
`$` (no MULTILINE) matches at the end of the input or just before a final
newline. -/
def lookaheadRaw (s : List Char) : Bool :=
  (dropLit "\n###".toList s).isSome || (dropLit "\n\n###".toList s).isSome ||
    s.isEmpty || s == ['\n']

/-- All matches of the raw pattern of schema.py:74 anchored at the head of
the input, in backtracking preference order, each giving capture group 1.
The pattern is `### Submission JSON\s*\n\s*` then the group: an opening
bracket or brace, lazy `[\s\S]*?`, a closing bracket or brace, followed by
the lookahead. -/
def matchRawCands (s : List Char) : List (List Char) := do
  let s1 ← (dropLit "### Submission JSON".toList s).toList
  let s2 ← wsSplitsGreedy s1
  let s3 ← (dropLit ['\n'] s2).toList
  let s4 ← wsSplitsGreedy s3
  match s4 with
  | [] => []
  | c :: s5 =>
    if isOpenBr c then do
      let gp ← anySplitsLazy s5
      match gp.2 with
      | [] => []
      | d :: s7 =>
        if isCloseBr d && lookaheadRaw s7 then pure (c :: (gp.1 ++ [d])) else []
    else []

/-- The preferred match of the raw pattern at the head of the input. -/
def matchRawAt (s : List Char) : Option (List Char) :=
  (matchRawCands s).head?

/-- Strategy (b) of `extract_json_from_issue_body` (schema.py:73-77). -/
def extractRaw (body : String) : Option String :=
  (searchFrom matchRawAt body.toList).map (fun g => String.mk (stripChars g))

/-- Scan for the first closing bracket or brace, splitting the input into
the characters before it (the lazy middle), the closer, and the rest. -/
def splitAtClose : List Char → Option (List Char × Char × List Char)
  | [] => none
  | c :: cs =>
    if isCloseBr c then some ([], c, cs)
    else (splitAtClose cs).map (fun t => (c :: t.1, t.2.1, t.2.2))

/-- One step of `re.finditer` with the fallback pattern of schema.py:80:
the leftmost opener that has a closer after it, with the lazy-shortest
middle, returning the whole match and the rest of the input after it. -/
def findBracketSpan : List Char → Option (List Char × List Char)
  | [] => none
  | c :: cs =>
    if isOpenBr c then
      match splitAtClose cs with
      | some t => some (c :: (t.1 ++ [t.2.1]), t.2.2)
      | none => none
    else findBracketSpan cs

theorem splitAtClose_len : ∀ (cs m : List Char) (d : Char) (rest : List Char),
    splitAtClose cs = some (m, d, rest) → rest.length < cs.length := by
  intro cs
  induction cs with
  | nil => intro m d rest h; simp [splitAtClose] at h
  | cons c cs ih =>
    intro m d rest h
    simp only [splitAtClose] at h
    by_cases hc : isCloseBr c = true
    · rw [if_pos hc] at h
      simp only [Option.some.injEq, Prod.mk.injEq] at h
      rw [← h.2.2]
      simp
    · rw [if_neg hc] at h
      rcases hsc : splitAtClose cs with _ | t
      · rw [hsc] at h; simp at h
      · rcases t with ⟨t1, td, tr⟩
        rw [hsc] at h
        simp only [Option.map_some', Option.some.injEq, Prod.mk.injEq] at h
        have hlt := ih t1 td tr hsc
        rw [← h.2.2]
        simp
        omega

theorem findBracketSpan_len : ∀ (s m rest : List Char),
    findBracketSpan s = some (m, rest) → rest.length < s.length := by
  intro s
  induction s with
  | nil => intro m rest h; simp [findBracketSpan] at h
  | cons c cs ih =>
    intro m rest h
    simp only [findBracketSpan] at h
    by_cases hc : isOpenBr c = true
    · rw [if_pos hc] at h
      rcases hsc : splitAtClose cs with _ | t
      · rw [hsc] at h; simp at h
      · rcases t with ⟨t1, td, tr⟩
        rw [hsc] at h
        simp only [Option.some.injEq, Prod.mk.injEq] at h
        have hlt := splitAtClose_len cs t1 td tr hsc
        rw [← h.2]
        simp
        omega
    · rw [if_neg hc] at h
      have := ih m rest h
      simp
      omega

/-- The delimiter check of schema.py:84-87: the stripped candidate must
start and end with matching outer delimiters. -/
def okDelims (cand : List Char) : Bool :=
  match cand.head?, cand.getLast? with
  | some h, some l => (h == '\x7b' && l == '\x7d') || (h == '[' && l == ']')
  | _, _ => false

/-- Strategy (c) of `extract_json_from_issue_body` (schema.py:79-87): walk
the `finditer` matches and return the first candidate whose outer
delimiters match. -/
def scanAny (s : List Char) : Option String :=
  match hfb : findBracketSpan s with
  | none => none
  | some t =>
    let cand := stripChars t.1
    if okDelims cand then some (String.mk cand) else scanAny t.2
termination_by s.length
decreasing_by
  simp_wf
  exact findBracketSpan_len s t.1 t.2 hfb

/-- Embeds `extract_json_from_issue_body` (schema.py:53-89): the three
strategies tried in order, each only when the previous one found nothing. -/
def extract_json_from_issue_body (body : String) : Option String :=
  match extractCodeblock body with
  | some s => some s
  | none =>
    match extractRaw body with
    | some s => some s
    | none => scanAny body.toList

/-- Lowercase letter class `[a-z]` of `tag_name_pattern`. -/
def isLowerAZ (c : Char) : Bool := 'a' ≤ c && c ≤ 'z'

/-- Digit class `[0-9]`. -/
def isDigitC (c : Char) : Bool := '0' ≤ c && c ≤ '9'

/-- Character class `[a-z0-9_]` of `tag_name_pattern`. -/
def isTagChar (c : Char) : Bool := isLowerAZ c || isDigitC c || c == '_'

/-- Full-match (ECMA-262) semantics of the anchored pattern string
`tag_name_pattern`, i.e. `^[a-z][a-z0-9_]\x7b0,63\x7d$`: one character
from `[a-z]`, then at most 63 characters from `[a-z0-9_]`, and nothing
else. -/
def tag_pattern_accepts (s : String) : Bool :=
  match s.toList with
  | [] => false
  | c :: rest => isLowerAZ c && rest.all isTagChar && decide (rest.length ≤ 63)

/-- The family of tag names asserted by claim C7 and by spec section 4.5
item 4: strings of lowercase alphanumeric characters and underscores, of
length 1 to 64. -/
def claimTagShape (s : String) : Prop :=
  1 ≤ s.toList.length ∧ s.toList.length ≤ 64 ∧ ∀ c ∈ s.toList, isTagChar c = true

/-- A node of the Python object graph built by `json.loads`: scalars, or a
list/dict holding references (heap addresses) to its children.  This heap
model makes the aliasing content of claim C6 statable. -/
inductive HNode where
  | hnull : HNode
  | hbool (b : Bool) : HNode
  | hint (n : Int) : HNode
  | hstr (s : String) : HNode
  | harr (elems : List Nat) : HNode
  | hobj (fields : List (String × Nat)) : HNode

/-- A heap of Python objects: a bump allocator position and the node
stored at each address (addresses at or above `next` are unused). -/
structure Heap where
  next : Nat
  mem : Nat → HNode

/-- The child addresses referenced by a node. -/
def nodePtrs : HNode → List Nat
  | HNode.harr es => es
  | HNode.hobj fs => fs.map (fun p => p.2)
  | _ => []

/-- Mutate the object stored at address `b` (a Python in-place update such
as `d[k] = v` seen from the heap). -/
def setMem (h : Heap) (b : Nat) (n : HNode) : Heap :=
  ⟨h.next, fun a => if a = b then n else h.mem a⟩

/-- Store a fresh node at the allocator position and return its address. -/
def pushNode (h : Heap) (n : HNode) : Heap × Nat :=
  (⟨h.next + 1, fun a => if a = h.next then n else h.mem a⟩, h.next)

mutual

/-- Build a fresh object graph for a JSON value (what `json.loads` does
with the serialized text). -/
def allocVal (h : Heap) : JVal → Heap × Nat
  | JVal.null => pushNode h HNode.hnull
  | JVal.bool b => pushNode h (HNode.hbool b)
  | JVal.int n => pushNode h (HNode.hint n)
  | JVal.str s => pushNode h (HNode.hstr s)
  | JVal.arr xs =>
    let p := allocList h xs
    pushNode p.1 (HNode.harr p.2)
  | JVal.obj fs =>
    let p := allocFields h fs
    pushNode p.1 (HNode.hobj p.2)

/-- Allocate the elements of a list left to right. -/
def allocList (h : Heap) : List JVal → Heap × List Nat
  | [] => (h, [])
  | x :: xs =>
    let p := allocVal h x
    let q := allocList p.1 xs
    (q.1, p.2 :: q.2)

/-- Allocate the values of a dict's fields left to right. -/
def allocFields (h : Heap) : List (String × JVal) → Heap × List (String × Nat)
  | [] => (h, [])
  | kv :: rest =>
    let p := allocVal h kv.2
    let q := allocFields p.1 rest
    (q.1, (kv.1, p.2) :: q.2)

end

/-- Read the JSON value of the object graph rooted at `a` (what
`json.dumps` extracts); `fuel` bounds the depth, so cyclic graphs read
`none` — like `json.dumps` raising on circular references. -/
def readVal : Nat → Heap → Nat → Option JVal
  | 0, _, _ => none
  | f + 1, h, a =>
    match h.mem a with
    | HNode.hnull => some JVal.null
    | HNode.hbool b => some (JVal.bool b)
    | HNode.hint n => some (JVal.int n)
    | HNode.hstr s => some (JVal.str s)
    | HNode.harr es => (es.mapM (fun b => readVal f h b)).map JVal.arr
    | HNode.hobj fs =>
      (fs.mapM (fun p => (readVal f h p.2).map (fun v => (p.1, v)))).map JVal.obj

/-- All addresses visited when traversing the object graph rooted at `a`
to depth `fuel`: the addresses of the (sub)objects of the document at `a`. -/
def collectAddrs : Nat → Heap → Nat → List Nat
  | 0, _, _ => []
  | f + 1, h, a => a :: (nodePtrs (h.mem a)).flatMap (fun b => collectAddrs f h b)

/-- Every address below `N` holds a node whose children are below `N`: the
live part of the heap is self-contained. -/
def ClosedBelow (h : Heap) (N : Nat) : Prop :=
  ∀ a, a < N → ∀ b ∈ nodePtrs (h.mem a), b < N

instance closedBelowDec (h : Heap) (N : Nat) : Decidable (ClosedBelow h N) := by
  unfold ClosedBelow
  infer_instance

/-- Embeds the deep-copy line `schema = json.loads(json.dumps(base_schema))`
(update_schema.py:55) at the heap level: serialize the object graph at `a`
to its JSON value (`readVal`, the content of `json.dumps`), then build a
completely fresh object graph for that value (`allocVal`, the content of
`json.loads`). -/
def json_roundtrip_copy (fuel : Nat) (h : Heap) (a : Nat) : Option (Heap × Nat) :=
  (readVal fuel h a).map (fun v => allocVal h v)

mutual

/-- Height of a JSON value: fuel sufficient for `readVal`. -/
def heightJ : JVal → Nat
  | JVal.null => 1
  | JVal.bool _ => 1
  | JVal.int _ => 1
  | JVal.str _ => 1
  | JVal.arr xs => heightList xs + 1
  | JVal.obj fs => heightFields fs + 1

/-- Height of a list of JSON values. -/
def heightList : List JVal → Nat
  | [] => 0
  | x :: xs => max (heightJ x) (heightList xs)

/-- Height of a dict's fields. -/
def heightFields : List (String × JVal) → Nat
  | [] => 0
  | kv :: rest => max (heightJ kv.2) (heightFields rest)

end

theorem optMapM_congr {α β : Type} (l : List α) (f g : α → Option β)
    (hfg : ∀ x ∈ l, ∀ y, f x = some y → g x = some y) :
    ∀ ys, l.mapM f = some ys → l.mapM g = some ys := by
  induction l with
  | nil => intro ys h; simpa using h
  | cons x xs ih =>
    intro ys h
    rw [List.mapM_cons] at h ⊢
    cases hx : f x with
    | none => rw [hx] at h; simp at h
    | some y =>
      rw [hx] at h
      cases hxs : xs.mapM f with
      | none => rw [hxs] at h; simp at h
      | some ts =>
        rw [hxs] at h
        simp only [Option.pure_def, Option.bind_eq_bind, Option.some_bind,
          Option.some.injEq] at h
        rw [hfg x (by simp) y hx, ih (fun z hz => hfg z (by simp [hz])) ts hxs]
        simp [h]

theorem heightJ_pos : ∀ (v : JVal), 1 ≤ heightJ v := by
  intro v
  cases v <;> simp [heightJ]

theorem readVal_mono : ∀ (f f' : Nat), f ≤ f' → ∀ (h : Heap) (a : Nat) (v : JVal),
    readVal f h a = some v → readVal f' h a = some v := by
  intro f
  induction f with
  | zero => intro f' _ h a v hr; simp [readVal] at hr
  | succ n ih =>
    intro f' hle h a v hr
    obtain ⟨m, rfl⟩ : ∃ m, f' = m + 1 := ⟨f' - 1, by omega⟩
    have hnm : n ≤ m := by omega
    cases hm : h.mem a with
    | hnull => simp only [readVal, hm] at hr ⊢; exact hr
    | hbool b => simp only [readVal, hm] at hr ⊢; exact hr
    | hint k => simp only [readVal, hm] at hr ⊢; exact hr
    | hstr s => simp only [readVal, hm] at hr ⊢; exact hr
    | harr es =>
      simp only [readVal, hm, Option.map_eq_some'] at hr ⊢
      obtain ⟨ys, hys, rfl⟩ := hr
      exact ⟨ys, optMapM_congr es _ _ (fun e _ y hy => ih m hnm h e y hy) ys hys, rfl⟩
    | hobj fs =>
      simp only [readVal, hm, Option.map_eq_some'] at hr ⊢
      obtain ⟨ys, hys, rfl⟩ := hr
      refine ⟨ys, optMapM_congr fs _ _ (fun p _ y hy => ?_) ys hys, rfl⟩
      simp only [Option.map_eq_some'] at hy ⊢
      obtain ⟨w, hw, rfl⟩ := hy
      exact ⟨w, ih m hnm h p.2 w hw, rfl⟩

theorem readVal_frame : ∀ (f : Nat) (h g : Heap) (N a : Nat), ClosedBelow h N → a < N →
    (∀ x, x < N → g.mem x = h.mem x) → ∀ v, readVal f h a = some v → readVal f g a = some v := by
  intro f
  induction f with
  | zero => intro h g N a _ _ _ v hr; simp [readVal] at hr
  | succ n ih =>
    intro h g N a hcl ha hag v hr
    have hga : g.mem a = h.mem a := hag a ha
    cases hm : h.mem a with
    | hnull => simp only [readVal, hm] at hr; simp only [readVal, hga, hm]; exact hr
    | hbool b => simp only [readVal, hm] at hr; simp only [readVal, hga, hm]; exact hr
    | hint k => simp only [readVal, hm] at hr; simp only [readVal, hga, hm]; exact hr
    | hstr s => simp only [readVal, hm] at hr; simp only [readVal, hga, hm]; exact hr
    | harr es =>
      simp only [readVal, hm] at hr
      simp only [readVal, hga, hm]
      simp only [Option.map_eq_some'] at hr ⊢
      obtain ⟨ys, hys, rfl⟩ := hr
      refine ⟨ys, optMapM_congr es _ _ (fun e he y hy => ?_) ys hys, rfl⟩
      have heN : e < N := hcl a ha e (by rw [hm]; simpa [nodePtrs] using he)
      exact ih h g N e hcl heN hag y hy
    | hobj fs =>
      simp only [readVal, hm] at hr
      simp only [readVal, hga, hm]
      simp only [Option.map_eq_some'] at hr ⊢
      obtain ⟨ys, hys, rfl⟩ := hr
      refine ⟨ys, optMapM_congr fs _ _ (fun p hp y hy => ?_) ys hys, rfl⟩
      simp only [Option.map_eq_some'] at hy ⊢
      obtain ⟨w, hw, rfl⟩ := hy
      have hpN : p.2 < N := by
        refine hcl a ha p.2 ?_
        rw [hm]
        simp only [nodePtrs]
        exact List.mem_map_of_mem _ hp
      exact ⟨w, ih h g N p.2 hcl hpN hag w hw, rfl⟩

/-- The allocation performed between two heap states: the allocator only
grew, memory below the old `next` is untouched, and every node written in
the new window points back into the window. -/
def AllocSpan (h h' : Heap) : Prop :=
  h.next ≤ h'.next ∧ (∀ x, x < h.next → h'.mem x = h.mem x) ∧
  (∀ x, h.next ≤ x → x < h'.next → ∀ b ∈ nodePtrs (h'.mem x), h.next ≤ b ∧ b < h'.next)

theorem allocSpan_refl (h : Heap) : AllocSpan h h := by
  refine ⟨le_refl _, fun x _ => rfl, fun x hx1 hx2 b _ => ?_⟩
  omega

theorem allocSpan_trans {h1 h2 h3 : Heap} (s12 : AllocSpan h1 h2) (s23 : AllocSpan h2 h3) :
    AllocSpan h1 h3 := by
  obtain ⟨n12, f12, w12⟩ := s12
  obtain ⟨n23, f23, w23⟩ := s23
  refine ⟨le_trans n12 n23, fun x hx => ?_, fun x hx1 hx2 b hb => ?_⟩
  · rw [f23 x (by omega), f12 x hx]
  · by_cases hcase : x < h2.next
    · have hmem : h3.mem x = h2.mem x := f23 x hcase
      rw [hmem] at hb
      have := w12 x hx1 hcase b hb
      omega
    · have := w23 x (by omega) hx2 b hb
      omega

theorem pushNode_scalar_span (h : Heap) (n : HNode) (hn : nodePtrs n = []) :
    AllocSpan h (pushNode h n).1 := by
  refine ⟨by simp [pushNode], fun x hx => ?_, fun x hx1 hx2 b hb => ?_⟩
  · simp only [pushNode]
    rw [if_neg (by omega)]
  · simp only [pushNode] at hx2 hb
    have hxeq : x = h.next := by omega
    rw [hxeq, if_pos rfl, hn] at hb
    simp at hb

mutual

theorem allocVal_span : ∀ (v : JVal) (h : Heap),
    AllocSpan h (allocVal h v).1 ∧ h.next ≤ (allocVal h v).2 ∧
      (allocVal h v).2 < (allocVal h v).1.next
  | JVal.null, h => by
    refine ⟨?_, by simp [allocVal, pushNode], by simp [allocVal, pushNode]⟩
    have hunf : allocVal h JVal.null = pushNode h HNode.hnull := by simp [allocVal]
    rw [hunf]
    exact pushNode_scalar_span h HNode.hnull rfl
  | JVal.bool b, h => by
    refine ⟨?_, by simp [allocVal, pushNode], by simp [allocVal, pushNode]⟩
    have hunf : allocVal h (JVal.bool b) = pushNode h (HNode.hbool b) := by simp [allocVal]
    rw [hunf]
    exact pushNode_scalar_span h (HNode.hbool b) rfl
  | JVal.int n, h => by
    refine ⟨?_, by simp [allocVal, pushNode], by simp [allocVal, pushNode]⟩
    have hunf : allocVal h (JVal.int n) = pushNode h (HNode.hint n) := by simp [allocVal]
    rw [hunf]
    exact pushNode_scalar_span h (HNode.hint n) rfl
  | JVal.str s, h => by
    refine ⟨?_, by simp [allocVal, pushNode], by simp [allocVal, pushNode]⟩
    have hunf : allocVal h (JVal.str s) = pushNode h (HNode.hstr s) := by simp [allocVal]
    rw [hunf]
    exact pushNode_scalar_span h (HNode.hstr s) rfl
  | JVal.arr xs, h => by
    obtain ⟨⟨hn, hf, hw⟩, hels⟩ := allocList_span xs h
    have hunf : allocVal h (JVal.arr xs) =
        pushNode (allocList h xs).1 (HNode.harr (allocList h xs).2) := by simp [allocVal]
    rw [hunf]
    refine ⟨⟨?_, ?_, ?_⟩, ?_, ?_⟩
    · simp only [pushNode]
      omega
    · intro x hx
      simp only [pushNode]
      rw [if_neg (by omega)]
      exact hf x hx
    · intro x hx1 hx2 b hb
      simp only [pushNode] at hx2 hb ⊢
      by_cases hxp : x = (allocList h xs).1.next
      · rw [if_pos hxp] at hb
        simp only [nodePtrs] at hb
        have := hels b hb
        omega
      · rw [if_neg hxp] at hb
        have := hw x hx1 (by omega) b hb
        omega
    · simp only [pushNode]
      omega
    · simp [pushNode]
  | JVal.obj fs, h => by
    obtain ⟨⟨hn, hf, hw⟩, hels⟩ := allocFields_span fs h
    have hunf : allocVal h (JVal.obj fs) =
        pushNode (allocFields h fs).1 (HNode.hobj (allocFields h fs).2) := by simp [allocVal]
    rw [hunf]
    refine ⟨⟨?_, ?_, ?_⟩, ?_, ?_⟩
    · simp only [pushNode]
      omega
    · intro x hx
      simp only [pushNode]
      rw [if_neg (by omega)]
      exact hf x hx
    · intro x hx1 hx2 b hb
      simp only [pushNode] at hx2 hb ⊢
      by_cases hxp : x = (allocFields h fs).1.next
      · rw [if_pos hxp] at hb
        simp only [nodePtrs, List.mem_map] at hb
        obtain ⟨p, hp, rfl⟩ := hb
        have := hels p hp
        omega
      · rw [if_neg hxp] at hb
        have := hw x hx1 (by omega) b hb
        omega
    · simp only [pushNode]
      omega
    · simp [pushNode]

theorem allocList_span : ∀ (xs : List JVal) (h : Heap),
    AllocSpan h (allocList h xs).1 ∧
      ∀ b ∈ (allocList h xs).2, h.next ≤ b ∧ b < (allocList h xs).1.next
  | [], h => by
    refine ⟨allocSpan_refl h, ?_⟩
    intro b hb
    simp [allocList] at hb
  | x :: xs, h => by
    obtain ⟨hvs, hvb1, hvb2⟩ := allocVal_span x h
    obtain ⟨hls, hlb⟩ := allocList_span xs (allocVal h x).1
    have hunf : allocList h (x :: xs) =
        ((allocList (allocVal h x).1 xs).1,
         (allocVal h x).2 :: (allocList (allocVal h x).1 xs).2) := by simp [allocList]
    rw [hunf]
    dsimp only
    refine ⟨allocSpan_trans hvs hls, ?_⟩
    intro b hb
    simp only [List.mem_cons] at hb
    rcases hb with rfl | hb
    · have hle : (allocVal h x).1.next ≤ (allocList (allocVal h x).1 xs).1.next := hls.1
      omega
    · have hbb := hlb b hb
      have hle : h.next ≤ (allocVal h x).1.next := hvs.1
      omega

theorem allocFields_span : ∀ (fs : List (String × JVal)) (h : Heap),
    AllocSpan h (allocFields h fs).1 ∧
      ∀ p ∈ (allocFields h fs).2, h.next ≤ p.2 ∧ p.2 < (allocFields h fs).1.next
  | [], h => by
    refine ⟨allocSpan_refl h, ?_⟩
    intro p hp
    simp [allocFields] at hp
  | kv :: rest, h => by
    obtain ⟨hvs, hvb1, hvb2⟩ := allocVal_span kv.2 h
    obtain ⟨hls, hlb⟩ := allocFields_span rest (allocVal h kv.2).1
    have hunf : allocFields h (kv :: rest) =
        ((allocFields (allocVal h kv.2).1 rest).1,
         (kv.1, (allocVal h kv.2).2) :: (allocFields (allocVal h kv.2).1 rest).2) := by
      simp [allocFields]
    rw [hunf]
    dsimp only
    refine ⟨allocSpan_trans hvs hls, ?_⟩
    intro p hp
    simp only [List.mem_cons] at hp
    rcases hp with rfl | hp
    · have hle : (allocVal h kv.2).1.next ≤ (allocFields (allocVal h kv.2).1 rest).1.next := hls.1
      simp only
      omega
    · have hbb := hlb p hp
      have hle : h.next ≤ (allocVal h kv.2).1.next := hvs.1
      omega

end

mutual

theorem allocVal_read : ∀ (v : JVal) (h g : Heap),
    (∀ x, h.next ≤ x → x < (allocVal h v).1.next → g.mem x = (allocVal h v).1.mem x) →
    ∀ f, heightJ v ≤ f → readVal f g (allocVal h v).2 = some v
  | JVal.null, h, g, hag, f, hf => by
    obtain ⟨m, rfl⟩ : ∃ m, f = m + 1 := ⟨f - 1, by simp [heightJ] at hf; omega⟩
    have h1 : (allocVal h JVal.null).1.next = h.next + 1 := by simp [allocVal, pushNode]
    have h2 : (allocVal h JVal.null).2 = h.next := by simp [allocVal, pushNode]
    have hg : g.mem h.next = HNode.hnull := by
      rw [hag h.next (le_refl _) (by omega)]
      simp [allocVal, pushNode]
    rw [h2]
    simp [readVal, hg]
  | JVal.bool b, h, g, hag, f, hf => by
    obtain ⟨m, rfl⟩ : ∃ m, f = m + 1 := ⟨f - 1, by simp [heightJ] at hf; omega⟩
    have h1 : (allocVal h (JVal.bool b)).1.next = h.next + 1 := by simp [allocVal, pushNode]
    have h2 : (allocVal h (JVal.bool b)).2 = h.next := by simp [allocVal, pushNode]
    have hg : g.mem h.next = HNode.hbool b := by
      rw [hag h.next (le_refl _) (by omega)]
      simp [allocVal, pushNode]
    rw [h2]
    simp [readVal, hg]
  | JVal.int n, h, g, hag, f, hf => by
    obtain ⟨m, rfl⟩ : ∃ m, f = m + 1 := ⟨f - 1, by simp [heightJ] at hf; omega⟩
    have h1 : (allocVal h (JVal.int n)).1.next = h.next + 1 := by simp [allocVal, pushNode]
    have h2 : (allocVal h (JVal.int n)).2 = h.next := by simp [allocVal, pushNode]
    have hg : g.mem h.next = HNode.hint n := by
      rw [hag h.next (le_refl _) (by omega)]
      simp [allocVal, pushNode]
    rw [h2]
    simp [readVal, hg]
  | JVal.str s, h, g, hag, f, hf => by
    obtain ⟨m, rfl⟩ : ∃ m, f = m + 1 := ⟨f - 1, by simp [heightJ] at hf; omega⟩
    have h1 : (allocVal h (JVal.str s)).1.next = h.next + 1 := by simp [allocVal, pushNode]
    have h2 : (allocVal h (JVal.str s)).2 = h.next := by simp [allocVal, pushNode]
    have hg : g.mem h.next = HNode.hstr s := by
      rw [hag h.next (le_refl _) (by omega)]
      simp [allocVal, pushNode]
    rw [h2]
    simp [readVal, hg]
  | JVal.arr xs, h, g, hag, f, hf => by
    have hunf : allocVal h (JVal.arr xs) =
        pushNode (allocList h xs).1 (HNode.harr (allocList h xs).2) := by simp [allocVal]
    obtain ⟨hls, hlb⟩ := allocList_span xs h
    have hnext1 : (allocVal h (JVal.arr xs)).1.next = (allocList h xs).1.next + 1 := by
      rw [hunf]; simp [pushNode]
    have hr : (allocVal h (JVal.arr xs)).2 = (allocList h xs).1.next := by
      rw [hunf]; simp [pushNode]
    have hmemtop : (allocVal h (JVal.arr xs)).1.mem (allocList h xs).1.next =
        HNode.harr (allocList h xs).2 := by
      rw [hunf]; simp [pushNode]
    obtain ⟨m, rfl⟩ : ∃ m, f = m + 1 := ⟨f - 1, by simp [heightJ] at hf; omega⟩
    have hfm : heightList xs ≤ m := by simp [heightJ] at hf; omega
    have hgr : g.mem (allocList h xs).1.next = HNode.harr (allocList h xs).2 := by
      rw [hag _ hls.1 (by omega), hmemtop]
    rw [hr]
    simp only [readVal, hgr]
    have hread : (allocList h xs).2.mapM (fun b => readVal m g b) = some xs := by
      apply allocList_read xs h g ?_ m hfm
      intro x hx1 hx2
      rw [hag x hx1 (by omega), hunf]
      simp only [pushNode]
      rw [if_neg (by omega)]
    rw [hread]
    simp
  | JVal.obj fs, h, g, hag, f, hf => by
    have hunf : allocVal h (JVal.obj fs) =
        pushNode (allocFields h fs).1 (HNode.hobj (allocFields h fs).2) := by simp [allocVal]
    obtain ⟨hls, hlb⟩ := allocFields_span fs h
    have hnext1 : (allocVal h (JVal.obj fs)).1.next = (allocFields h fs).1.next + 1 := by
      rw [hunf]; simp [pushNode]
    have hr : (allocVal h (JVal.obj fs)).2 = (allocFields h fs).1.next := by
      rw [hunf]; simp [pushNode]
    have hmemtop : (allocVal h (JVal.obj fs)).1.mem (allocFields h fs).1.next =
        HNode.hobj (allocFields h fs).2 := by
      rw [hunf]; simp [pushNode]
    obtain ⟨m, rfl⟩ : ∃ m, f = m + 1 := ⟨f - 1, by simp [heightJ] at hf; omega⟩
    have hfm : heightFields fs ≤ m := by simp [heightJ] at hf; omega
    have hgr : g.mem (allocFields h fs).1.next = HNode.hobj (allocFields h fs).2 := by
      rw [hag _ hls.1 (by omega), hmemtop]
    rw [hr]
    simp only [readVal, hgr]
    have hread : (allocFields h fs).2.mapM
        (fun p => (readVal m g p.2).map (fun v => (p.1, v))) = some fs := by
      apply allocFields_read fs h g ?_ m hfm
      intro x hx1 hx2
      rw [hag x hx1 (by omega), hunf]
      simp only [pushNode]
      rw [if_neg (by omega)]
    rw [hread]
    simp

theorem allocList_read : ∀ (xs : List JVal) (h g : Heap),
    (∀ x, h.next ≤ x → x < (allocList h xs).1.next → g.mem x = (allocList h xs).1.mem x) →
    ∀ f, heightList xs ≤ f →
    (allocList h xs).2.mapM (fun b => readVal f g b) = some xs
  | [], h, g, hag, f, hf => by
    simp only [allocList]
    rfl
  | x :: xs, h, g, hag, f, hf => by
    obtain ⟨hvs, hvb1, hvb2⟩ := allocVal_span x h
    obtain ⟨hqs, hqb⟩ := allocList_span xs (allocVal h x).1
    have hfin : (allocList h (x :: xs)).1 = (allocList (allocVal h x).1 xs).1 := by
      simp [allocList]
    have hsnd : (allocList h (x :: xs)).2 =
        (allocVal h x).2 :: (allocList (allocVal h x).1 xs).2 := by
      simp [allocList]
    rw [hsnd, List.mapM_cons]
    have hx : readVal f g (allocVal h x).2 = some x := by
      apply allocVal_read x h g ?_ f (by simp [heightList] at hf; omega)
      intro y hy1 hy2
      have hyfin : y < (allocList h (x :: xs)).1.next := by
        rw [hfin]
        have := hqs.1
        omega
      rw [hag y hy1 hyfin, hfin]
      exact hqs.2.1 y hy2
    have hxs : (allocList (allocVal h x).1 xs).2.mapM (fun b => readVal f g b) = some xs := by
      apply allocList_read xs (allocVal h x).1 g ?_ f (by simp [heightList] at hf; omega)
      intro y hy1 hy2
      have hyh : h.next ≤ y := le_trans hvs.1 hy1
      have hyfin : y < (allocList h (x :: xs)).1.next := by rw [hfin]; omega
      rw [hag y hyh hyfin, hfin]
    rw [hx, hxs]
    simp

theorem allocFields_read : ∀ (fs : List (String × JVal)) (h g : Heap),
    (∀ x, h.next ≤ x → x < (allocFields h fs).1.next → g.mem x = (allocFields h fs).1.mem x) →
    ∀ f, heightFields fs ≤ f →
    (allocFields h fs).2.mapM (fun p => (readVal f g p.2).map (fun v => (p.1, v))) = some fs
  | [], h, g, hag, f, hf => by
    simp only [allocFields]
    rfl
  | kv :: rest, h, g, hag, f, hf => by
    obtain ⟨hvs, hvb1, hvb2⟩ := allocVal_span kv.2 h
    obtain ⟨hqs, hqb⟩ := allocFields_span rest (allocVal h kv.2).1
    have hfin : (allocFields h (kv :: rest)).1 = (allocFields (allocVal h kv.2).1 rest).1 := by
      simp [allocFields]
    have hsnd : (allocFields h (kv :: rest)).2 =
        (kv.1, (allocVal h kv.2).2) :: (allocFields (allocVal h kv.2).1 rest).2 := by
      simp [allocFields]
    rw [hsnd, List.mapM_cons]
    have hx : readVal f g (allocVal h kv.2).2 = some kv.2 := by
      apply allocVal_read kv.2 h g ?_ f (by simp [heightFields] at hf; omega)
      intro y hy1 hy2
      have hyfin : y < (allocFields h (kv :: rest)).1.next := by
        rw [hfin]
        have := hqs.1
        omega
      rw [hag y hy1 hyfin, hfin]
      exact hqs.2.1 y hy2
    have hxs : (allocFields (allocVal h kv.2).1 rest).2.mapM
        (fun p => (readVal f g p.2).map (fun v => (p.1, v))) = some rest := by
      apply allocFields_read rest (allocVal h kv.2).1 g ?_ f
        (by simp [heightFields] at hf; omega)
      intro y hy1 hy2
      have hyh : h.next ≤ y := le_trans hvs.1 hy1
      have hyfin : y < (allocFields h (kv :: rest)).1.next := by rw [hfin]; omega
      rw [hag y hyh hyfin, hfin]
    rw [hx, hxs]
    simp

end

theorem collectAddrs_bound : ∀ (f : Nat) (g : Heap) (lo hi : Nat),
    (∀ x, lo ≤ x → x < hi → ∀ b ∈ nodePtrs (g.mem x), lo ≤ b ∧ b < hi) →
    ∀ r, lo ≤ r → r < hi → ∀ b ∈ collectAddrs f g r, lo ≤ b ∧ b < hi := by
  intro f
  induction f with
  | zero => intro g lo hi _ r _ _ b hb; simp [collectAddrs] at hb
  | succ n ih =>
    intro g lo hi hw r hr1 hr2 b hb
    simp only [collectAddrs, List.mem_cons] at hb
    rcases hb with rfl | hb
    · exact ⟨hr1, hr2⟩
    · rw [List.mem_flatMap] at hb
      obtain ⟨c, hc, hbc⟩ := hb
      have hcw := hw r hr1 hr2 c hc
      exact ih g lo hi hw c hcw.1 hcw.2 b hbc

theorem getKey?_some_mem {κ α : Type} [BEq κ] [LawfulBEq κ] :
    ∀ {fs : List (κ × α)} {k : κ} {v : α}, getKey? fs k = some v → (k, v) ∈ fs := by
  intro fs
  induction fs with
  | nil => intro k v h; simp [getKey?] at h
  | cons p fs ih =>
    intro k v h
    by_cases hpk : p.1 = k
    · rw [getKey?, if_pos (by simp [hpk])] at h
      simp only [Option.some.injEq] at h
      subst h
      subst hpk
      exact List.mem_cons_self _ _
    · rw [getKey?, if_neg (by simp [hpk])] at h
      exact List.mem_cons_of_mem _ (ih h)

theorem getKey?_of_mem_nodup {κ α : Type} [BEq κ] [LawfulBEq κ] :
    ∀ {fs : List (κ × α)} {k : κ} {v : α},
    (fs.map Prod.fst).Nodup → (k, v) ∈ fs → getKey? fs k = some v := by
  intro fs
  induction fs with
  | nil => intro k v _ hm; simp at hm
  | cons p fs ih =>
    intro k v hnd hm
    simp only [List.map_cons, List.nodup_cons] at hnd
    simp only [List.mem_cons] at hm
    rcases hm with heq | hm
    · rw [← heq]
      simp [getKey?]
    · have hk : p.1 ≠ k := by
        intro hcontra
        exact hnd.1 (hcontra ▸ List.mem_map_of_mem Prod.fst hm)
      rw [getKey?, if_neg (by simp [hk])]
      exact ih hnd.2 hm

theorem getKey?_setKey_self {κ α : Type} [BEq κ] [LawfulBEq κ] :
    ∀ (fs : List (κ × α)) (k : κ) (v : α), getKey? (setKey fs k v) k = some v := by
  intro fs
  induction fs with
  | nil => intro k v; simp [setKey, getKey?]
  | cons p fs ih =>
    intro k v
    by_cases hpk : p.1 = k
    · rw [setKey, if_pos (by simp [hpk]), getKey?, if_pos (by simp [hpk])]
    · rw [setKey, if_neg (by simp [hpk]), getKey?, if_neg (by simp [hpk])]
      exact ih k v

theorem getKey?_setKey_ne {κ α : Type} [BEq κ] [LawfulBEq κ] :
    ∀ (fs : List (κ × α)) (k k' : κ) (v : α), k' ≠ k →
    getKey? (setKey fs k v) k' = getKey? fs k' := by
  intro fs
  induction fs with
  | nil =>
    intro k k' v hne
    simp [setKey, getKey?, beq_iff_eq, Ne.symm hne]
  | cons p fs ih =>
    intro k k' v hne
    by_cases hpk : p.1 = k
    · rw [setKey, if_pos (by simp [hpk])]
      have hpq : p.1 ≠ k' := by rw [hpk]; exact Ne.symm hne
      rw [getKey?, if_neg (by simp [hpq]), getKey?, if_neg (by simp [hpq])]
    · rw [setKey, if_neg (by simp [hpk])]
      by_cases hpq : p.1 = k'
      · rw [getKey?, if_pos (by simp [hpq]), getKey?, if_pos (by simp [hpq])]
      · rw [getKey?, if_neg (by simp [hpq]), getKey?, if_neg (by simp [hpq])]
        exact ih k k' v hne

theorem le_of_mem_max? : ∀ (l : List Nat) (m : Nat), l.max? = some m → ∀ a ∈ l, a ≤ m := by
  intro l
  induction l with
  | nil => intro m hm a ha; simp at ha
  | cons x xs ih =>
    intro m hm a ha
    rw [List.max?_cons] at hm
    cases hxs : xs.max? with
    | none =>
      rw [hxs] at hm
      simp only [Option.elim, Option.some.injEq] at hm
      have hnil : xs = [] := by
        cases xs with
        | nil => rfl
        | cons y ys => rw [List.max?_cons] at hxs; simp at hxs
      subst hnil
      simp only [List.mem_singleton] at ha
      omega
    | some mx =>
      rw [hxs] at hm
      simp only [Option.elim, Option.some.injEq] at hm
      simp only [List.mem_cons] at ha
      rcases ha with rfl | ha
      · omega
      · have := ih mx hxs a ha
        omega

instance pairLeTotal : IsTotal (String × String) pairLe := ⟨by
  intro a b
  rcases lt_trichotomy a.1 b.1 with h | h | h
  · exact Or.inl (Or.inl h)
  · rcases le_total a.2 b.2 with h2 | h2
    · exact Or.inl (Or.inr ⟨h, h2⟩)
    · exact Or.inr (Or.inr ⟨h.symm, h2⟩)
  · exact Or.inr (Or.inl h)⟩

instance pairLeTrans : IsTrans (String × String) pairLe := ⟨by
  intro a b c hab hbc
  rcases hab with h1 | ⟨h1, h1'⟩
  · rcases hbc with h2 | ⟨h2, h2'⟩
    · exact Or.inl (lt_trans h1 h2)
    · exact Or.inl (lt_of_lt_of_eq h1 h2)
  · rcases hbc with h2 | ⟨h2, h2'⟩
    · exact Or.inl (lt_of_eq_of_lt h1 h2)
    · exact Or.inr ⟨h1.trans h2, le_trans h1' h2'⟩⟩

instance pairLeAntisymm : IsAntisymm (String × String) pairLe := ⟨by
  intro a b hab hba
  rcases hab with h1 | ⟨h1, h1'⟩
  · rcases hba with h2 | ⟨h2, h2'⟩
    · exact absurd h2 (lt_asymm h1)
    · exact absurd (lt_of_lt_of_eq h1 h2) (lt_irrefl _)
  · rcases hba with h2 | ⟨h2, h2'⟩
    · exact absurd (lt_of_lt_of_eq h2 h1) (lt_irrefl _)
    · have : a.2 = b.2 := le_antisymm h1' h2'
      cases a
      cases b
      simp_all⟩

theorem assoc_perm_of_lookup_eq (r₁ r₂ : List (String × String))
    (h1 : (r₁.map Prod.fst).Nodup) (h2 : (r₂.map Prod.fst).Nodup)
    (heq : ∀ k, getKey? r₁ k = getKey? r₂ k) : r₁.Perm r₂ := by
  apply List.perm_of_nodup_nodup_toFinset_eq h1.of_map h2.of_map
  ext x
  rcases x with ⟨k, v⟩
  simp only [List.mem_toFinset]
  constructor
  · intro hm
    have hg := getKey?_of_mem_nodup h1 hm
    rw [heq k] at hg
    exact getKey?_some_mem hg
  · intro hm
    have hg := getKey?_of_mem_nodup h2 hm
    rw [← heq k] at hg
    exact getKey?_some_mem hg

theorem pySorted_eq_of_perm (r₁ r₂ : List (String × String)) (hp : r₁.Perm r₂) :
    pySorted r₁ = pySorted r₂ :=
  List.eq_of_perm_of_sorted
    ((List.perm_insertionSort pairLe r₁).trans (hp.trans (List.perm_insertionSort pairLe r₂).symm))
    (List.sorted_insertionSort pairLe r₁) (List.sorted_insertionSort pairLe r₂)

theorem newTagsLoop_obj : ∀ (reg : List (String × String)) (tp : List (String × JVal)),
    newTagsLoop reg (JVal.obj tp) =
      some ((reg.filter (fun p => !tp.any (fun q => q.1 == p.1))).map (fun p => p.1)) := by
  intro reg tp
  induction reg with
  | nil => simp [newTagsLoop]
  | cons p reg ih =>
    rw [newTagsLoop]
    simp only [jmem, Option.some_bind, ih, Option.some_bind]
    by_cases hb : tp.any (fun q => q.1 == p.1) = true
    · simp [hb, List.filter_cons]
    · simp only [Bool.not_eq_true] at hb
      simp [hb, List.filter_cons]

/-- Navigate one key into a JSON object. -/
def jpath (v : JVal) (k : String) : Option JVal :=
  match v with
  | JVal.obj fs => getKey? fs k
  | _ => none

theorem generate_new_schema_some (base : JVal) (reg : List (String × String)) (ver : Nat)
    (schema : JVal) (hgen : generate_new_schema base reg ver = some schema) :
    ∃ fs props, base = JVal.obj fs ∧
      getKey? (setKey fs "title" (JVal.str (new_title ver))) "properties" =
        some (JVal.obj props) ∧
      schema = JVal.obj (setKey (setKey fs "title" (JVal.str (new_title ver))) "properties"
        (JVal.obj (setKey props "tags" (tags_block
          ((pySorted reg).map (fun p => (p.1, type_name_to_json_schema p.2))))))) := by
  cases base with
  | obj fs =>
    refine ⟨fs, ?_⟩
    simp only [generate_new_schema] at hgen
    rcases hk : getKey? (setKey fs "title" (JVal.str (new_title ver))) "properties" with _ | w
    · rw [hk] at hgen; simp at hgen
    · cases w with
      | obj props =>
        rw [hk] at hgen
        simp only [Option.some.injEq] at hgen
        exact ⟨props, rfl, rfl, hgen.symm⟩
      | null => rw [hk] at hgen; simp at hgen
      | bool b => rw [hk] at hgen; simp at hgen
      | int n => rw [hk] at hgen; simp at hgen
      | str s => rw [hk] at hgen; simp at hgen
      | arr xs => rw [hk] at hgen; simp at hgen
  | null => simp [generate_new_schema] at hgen
  | bool b => simp [generate_new_schema] at hgen
  | int n => simp [generate_new_schema] at hgen
  | str s => simp [generate_new_schema] at hgen
  | arr xs => simp [generate_new_schema] at hgen

/-- The error-line format asserted by the spec (section 4.6): optional
index prefix for batches, then the dotted path or `(root)` for an empty
path, then `": "` and the message. -/
def spec_error_line (batch : Bool) (i : Nat) (e : VError) : String :=
  (if batch then "[" ++ toString i ++ "] " else "") ++
    (if e.1 = [] then "(root)" else String.intercalate "." e.1) ++ ": " ++ e.2

/-- C8: for every input string and schema, `parse_and_validate` first
parses the string as JSON and runs schema validation only if parsing
succeeds; on a parse failure it returns `none` as the data together with a
single error message containing the underlying parse error verbatim (never
masked), and on success it returns the parsed value together with exactly
the validator's error list. -/
theorem c8_parse_then_validate (parseJson : String → Except String JVal)
    (iterErrors : JVal → List VError) (s : String) :
    (∀ e, parseJson s = Except.error e →
      parse_and_validate parseJson iterErrors s = (none, ["Invalid JSON: " ++ e]) ∧
      ∃ pre post, "Invalid JSON: " ++ e = pre ++ e ++ post) ∧
    (∀ d, parseJson s = Except.ok d →
      parse_and_validate parseJson iterErrors s =
        (some d, validate_submission iterErrors (toInput d))) := by
  constructor
  · intro e he
    exact ⟨by simp [parse_and_validate, he], "Invalid JSON: ", "", by simp⟩
  · intro d hd
    simp [parse_and_validate, hd]

theorem c8_parse_then_validate_witness :
    parse_and_validate (fun _ => Except.error "boom") (fun _ => []) "x" =
      (none, ["Invalid JSON: boom"]) :=
  ((c8_parse_then_validate (fun _ => Except.error "boom") (fun _ => []) "x").1 "boom" rfl).1

/-- C5: the extractor tries the three strategies in order, each only when
the previous one fails: a successful fenced-code-block match is returned
as is (ignoring all other bracketed text in the body), the raw match is
used only when the fenced match fails, the whole-body bracket scan only
when both fail, and the result is `none` exactly when all three
strategies fail. -/
theorem c5_extractor_layering (body : String) :
    (∀ s, extractCodeblock body = some s → extract_json_from_issue_body body = some s) ∧
    (extractCodeblock body = none → ∀ s, extractRaw body = some s →
      extract_json_from_issue_body body = some s) ∧
    (extractCodeblock body = none → extractRaw body = none →
      extract_json_from_issue_body body = scanAny body.toList) ∧
    (extract_json_from_issue_body body = none ↔
      extractCodeblock body = none ∧ extractRaw body = none ∧ scanAny body.toList = none) := by
  refine ⟨?_, ?_, ?_, ?_, ?_⟩
  · intro s hs
    simp [extract_json_from_issue_body, hs]
  · intro ha s hs
    simp [extract_json_from_issue_body, ha, hs]
  · intro ha hb
    simp [extract_json_from_issue_body, ha, hb]
  · intro hnone
    rcases ha : extractCodeblock body with _ | s
    · rcases hb : extractRaw body with _ | s
      · refine ⟨rfl, rfl, ?_⟩
        simpa [extract_json_from_issue_body, ha, hb] using hnone
      · exfalso
        simp [extract_json_from_issue_body, ha, hb] at hnone
    · exfalso
      simp [extract_json_from_issue_body, ha] at hnone
  · rintro ⟨ha, hb, hc⟩
    simp only [extract_json_from_issue_body, ha, hb]
    exact hc

theorem c5_extractor_layering_witness :
    extractCodeblock "### Submission JSON\n```json\n\x7b\"a\": 1\x7d\n```\nother \x7bx\x7d" =
      some "\x7b\"a\": 1\x7d" ∧
    extract_json_from_issue_body
        "### Submission JSON\n```json\n\x7b\"a\": 1\x7d\n```\nother \x7bx\x7d" =
      some "\x7b\"a\": 1\x7d" :=
  ⟨rfl, (c5_extractor_layering
    "### Submission JSON\n```json\n\x7b\"a\": 1\x7d\n```\nother \x7bx\x7d").1
    "\x7b\"a\": 1\x7d" rfl⟩

/-- C3 (amended): every error string produced by the validator is the
concatenation of an index prefix, the path part, `": "`, and the message,
where the prefix part is `"[i] "` exactly when the input is a batch of
more than one submission (a single submission and a one-element batch
produce identical, prefix-free lines), and the path part is `"(root)"`
when the error's path is empty and the dot-joined path otherwise (the
join may itself equal `"(root)"` when a path component is that literal
string, which is what the counterexample exhibits). -/
theorem c3_error_format (iter : JVal → List VError) (d : JVal) (l : List JVal) :
    validate_submission iter (SubmissionInput.one d) =
      (iter d).map (spec_error_line false 0) ∧
    validate_submission iter (SubmissionInput.many [d]) =
      validate_submission iter (SubmissionInput.one d) ∧
    validate_submission iter (SubmissionInput.many l) =
      l.enum.flatMap (fun is =>
        (iter is.2).map (fun e => spec_error_line (decide (1 < l.length)) is.1 e)) := by
  refine ⟨?_, ?_, ?_⟩
  · simp [validate_submission, subsOf, spec_error_line, pathText, List.isEmpty_iff]
  · simp [validate_submission, subsOf]
  · simp [validate_submission, subsOf, spec_error_line, pathText, List.isEmpty_iff]

/-- C3 counterexample: an error whose path is the one-component path
`["(root)"]` (a submission property literally named `"(root)"`, which the
external validator reports verbatim) produces exactly the same error
string as an error with an empty path, so the path part of the produced
string is `"(root)"` without the error's path being empty: the "exactly
when the path is empty" biconditional of the claim fails. -/
theorem c3_counterexample :
    validate_submission (fun _ => [(["(root)"], "bad")]) (SubmissionInput.one JVal.null) =
      ["(root): bad"] ∧
    validate_submission (fun _ => [([], "bad")]) (SubmissionInput.one JVal.null) =
      ["(root): bad"] ∧
    (["(root)"] : List String) ≠ [] := by
  refine ⟨rfl, rfl, by simp⟩

/-- C4: for every tag registry and schema (whose declared tag properties
exist, the precondition of spec section 4.4), `check_for_new_tags` returns
exactly the tag names present in the registry but absent from the schema's
`properties.tags.properties`, in registry iteration order (a subsequence
of the registry's key order), with no duplicates when the registry's keys
have none.  Both inputs are values, so neither is modified. -/
theorem c4_differ_correct (reg : List (String × String)) (schema : JVal)
    (tp : List (String × JVal))
    (hex : get_existing_tag_definitions schema = some (JVal.obj tp)) :
    ∃ L, check_for_new_tags reg schema = some L ∧
      L = (reg.filter (fun p => !tp.any (fun q => q.1 == p.1))).map (fun p => p.1) ∧
      (∀ t, t ∈ L ↔ t ∈ reg.map (fun p => p.1) ∧ ¬ t ∈ tp.map (fun q => q.1)) ∧
      L.Sublist (reg.map (fun p => p.1)) ∧
      ((reg.map (fun p => p.1)).Nodup → L.Nodup) := by
  refine ⟨(reg.filter (fun p => !tp.any (fun q => q.1 == p.1))).map (fun p => p.1),
    ?_, rfl, ?_, ?_, ?_⟩
  · simp [check_for_new_tags, hex, newTagsLoop_obj]
  · intro t
    constructor
    · intro ht
      simp only [List.mem_map, List.mem_filter] at ht
      obtain ⟨p, ⟨hpreg, hpf⟩, rfl⟩ := ht
      refine ⟨List.mem_map_of_mem _ hpreg, ?_⟩
      intro hmem
      simp only [List.mem_map] at hmem
      obtain ⟨q, hq, hqp⟩ := hmem
      simp only [Bool.not_eq_true', List.any_eq_false] at hpf
      exact absurd (by simp [hqp]) (hpf q hq)
    · rintro ⟨htreg, htp⟩
      simp only [List.mem_map] at htreg
      obtain ⟨p, hpreg, rfl⟩ := htreg
      simp only [List.mem_map, List.mem_filter]
      refine ⟨p, ⟨hpreg, ?_⟩, rfl⟩
      simp only [Bool.not_eq_true', List.any_eq_false]
      intro q hq
      simp only [beq_iff_eq]
      intro hqp
      exact htp (List.mem_map.mpr ⟨q, hq, hqp⟩)
  · exact List.Sublist.map _ (List.filter_sublist reg)
  · intro hnd
    exact List.Nodup.sublist (List.Sublist.map _ (List.filter_sublist reg)) hnd

theorem c4_differ_correct_witness :
    check_for_new_tags [("engine_count", "integer"), ("paint_color", "string")]
      (JVal.obj [("properties", JVal.obj [("tags", JVal.obj [("properties",
        JVal.obj [("engine_count", JVal.obj [("type", JVal.str "integer")])])])])]) =
      some ["paint_color"] := by
  obtain ⟨L, hL, hLval, hmem, hsub, hnd⟩ :=
    c4_differ_correct [("engine_count", "integer"), ("paint_color", "string")]
      (JVal.obj [("properties", JVal.obj [("tags", JVal.obj [("properties",
        JVal.obj [("engine_count", JVal.obj [("type", JVal.str "integer")])])])])])
      [("engine_count", JVal.obj [("type", JVal.str "integer")])] rfl
  rw [hL, hLval]
  rfl

theorem create_cases (st : SchemaStore) (reg : List (String × String)) (b : Bool)
    (out : Option Nat × List String) (st' : SchemaStore)
    (hrun : create_new_schema_version st reg b = some (out, st')) :
    ∃ cur schema tags, get_latest_schema_version st = some cur ∧
      load_schema st cur = some schema ∧ check_for_new_tags reg schema = some tags ∧
      ((tags = [] ∧ out = (none, []) ∧ st' = st) ∨
       (tags ≠ [] ∧ b = true ∧ out = (some (cur + 1), tags) ∧ st' = st) ∨
       (tags ≠ [] ∧ b = false ∧ ∃ doc, generate_new_schema schema reg (cur + 1) = some doc ∧
         out = (some (cur + 1), tags) ∧ st' = write_schema_file st (cur + 1) doc)) := by
  unfold create_new_schema_version at hrun
  rcases hl : get_latest_schema_version st with _ | cur
  · rw [hl] at hrun; simp at hrun
  · rw [hl] at hrun
    simp only [Option.bind_eq_bind, Option.some_bind] at hrun
    rcases hs : load_schema st cur with _ | schema
    · rw [hs] at hrun; simp at hrun
    · rw [hs] at hrun
      simp only [Option.bind_eq_bind, Option.some_bind] at hrun
      rcases hc : check_for_new_tags reg schema with _ | tags
      · rw [hc] at hrun; simp at hrun
      · rw [hc] at hrun
        simp only [Option.bind_eq_bind, Option.some_bind] at hrun
        refine ⟨cur, schema, tags, rfl, hs, hc, ?_⟩
        by_cases hemp : tags.isEmpty = true
        · rw [if_pos hemp] at hrun
          simp only [Option.pure_def, Option.some.injEq, Prod.mk.injEq] at hrun
          exact Or.inl ⟨List.isEmpty_iff.mp hemp, hrun.1.symm, hrun.2.symm⟩
        · rw [if_neg hemp] at hrun
          have htne : tags ≠ [] := by
            intro hcontra
            exact hemp (by simp [hcontra])
          by_cases hb : b = true
          · rw [if_pos hb] at hrun
            simp only [Option.pure_def, Option.some.injEq, Prod.mk.injEq] at hrun
            exact Or.inr (Or.inl ⟨htne, hb, hrun.1.symm, hrun.2.symm⟩)
          · rw [if_neg hb] at hrun
            rcases hg : generate_new_schema schema reg (cur + 1) with _ | doc
            · rw [hg] at hrun; simp at hrun
            · rw [hg] at hrun
              simp only [Option.bind_eq_bind, Option.some_bind, Option.pure_def,
                Option.some.injEq, Prod.mk.injEq] at hrun
              exact Or.inr (Or.inr ⟨htne, Bool.not_eq_true b ▸ hb, doc, rfl,
                hrun.1.symm, hrun.2.symm⟩)

/-- C1 (amended): `generate_new_schema` performs no version check and
never fails with a `VersionError` (no such error exists in the code); it
produces a document for any target version.  Strict monotonicity holds
only at the call sites: whenever `create_new_schema_version` reports a new
version, that version is exactly `current_latest + 1`. -/
theorem c1_version_monotonic_at_call_sites (st : SchemaStore)
    (reg : List (String × String)) (b : Bool) (v : Nat) (tags : List String)
    (st' : SchemaStore)
    (hrun : create_new_schema_version st reg b = some ((some v, tags), st')) :
    ∃ cur, get_latest_schema_version st = some cur ∧ v = cur + 1 := by
  obtain ⟨cur, schema, tags', hl, hs, hc, hcase⟩ := create_cases st reg b _ _ hrun
  rcases hcase with ⟨_, hout, _⟩ | ⟨_, _, hout, _⟩ | ⟨_, _, doc, _, hout, _⟩
  · exact absurd (congrArg Prod.fst hout) (by simp)
  · refine ⟨cur, hl, ?_⟩
    have := congrArg Prod.fst hout
    simp only [Option.some.injEq] at this
    exact this
  · refine ⟨cur, hl, ?_⟩
    have := congrArg Prod.fst hout
    simp only [Option.some.injEq] at this
    exact this

theorem c1_version_monotonic_at_call_sites_witness :
    ∃ cur, get_latest_schema_version (SchemaStore.mk [(1, JVal.obj [("title", JVal.str "t"),
        ("properties", JVal.obj [("tags", JVal.obj [("properties", JVal.obj [])])])])]) =
      some cur ∧ 2 = cur + 1 :=
  c1_version_monotonic_at_call_sites
    (SchemaStore.mk [(1, JVal.obj [("title", JVal.str "t"),
      ("properties", JVal.obj [("tags", JVal.obj [("properties", JVal.obj [])])])])])
    [("color", "string")] true 2 ["color"]
    (SchemaStore.mk [(1, JVal.obj [("title", JVal.str "t"),
      ("properties", JVal.obj [("tags", JVal.obj [("properties", JVal.obj [])])])])])
    rfl

/-- C1 counterexample: with a store whose latest version is 1,
`generate_new_schema` happily produces a schema document for target
version 5 (which is not `1 + 1`), and raises nothing: the claimed
`VersionError` refusal does not exist in the code. -/
theorem c1_counterexample :
    get_latest_schema_version (SchemaStore.mk [(1, JVal.obj [("title", JVal.str "t"),
        ("properties", JVal.obj [])])]) = some 1 ∧
    (5 : Nat) ≠ 1 + 1 ∧
    (generate_new_schema (JVal.obj [("title", JVal.str "t"), ("properties", JVal.obj [])])
      [] 5).isSome = true := by
  refine ⟨rfl, by decide, rfl⟩

/-- C2 (amended): the schema write has plain overwrite semantics (mode
`"w"`) and raises no `ConflictError`; but `create_new_schema_version` only
ever writes version `current_latest + 1`, which is never a persisted
version, so every previously persisted version still loads its original
document after any run. -/
theorem c2_existing_versions_never_overwritten (st : SchemaStore)
    (reg : List (String × String)) (b : Bool) (out : Option Nat × List String)
    (st' : SchemaStore)
    (hrun : create_new_schema_version st reg b = some (out, st'))
    (w : Nat) (doc : JVal) (hw : load_schema st w = some doc) :
    load_schema st' w = some doc := by
  obtain ⟨cur, schema, tags, hl, hs, hc, hcase⟩ := create_cases st reg b _ _ hrun
  rcases hcase with ⟨_, _, rfl⟩ | ⟨_, _, _, rfl⟩ | ⟨_, _, doc', hgen, hout, rfl⟩
  · exact hw
  · exact hw
  · have hwmem : (w, doc) ∈ st.docs := getKey?_some_mem hw
    have hwkeys : w ∈ st.docs.map (fun p => p.1) := List.mem_map_of_mem _ hwmem
    have hmax : (st.docs.map (fun p => p.1)).max? = some cur := by
      simpa [get_latest_schema_version] using hl
    have hwle : w ≤ cur := le_of_mem_max? _ cur hmax w hwkeys
    simp only [load_schema, write_schema_file]
    rw [getKey?_setKey_ne _ _ _ _ (by omega)]
    exact hw

theorem c2_existing_versions_never_overwritten_witness :
    load_schema ((create_new_schema_version
        (SchemaStore.mk [(1, JVal.str "docA"), (2, JVal.obj [("title", JVal.str "t"),
          ("properties", JVal.obj [("tags", JVal.obj [("properties", JVal.obj [])])])])])
        [("color", "string")] false).getD ((none, []),
          SchemaStore.mk [])).2 1 = some (JVal.str "docA") :=
  c2_existing_versions_never_overwritten
    (SchemaStore.mk [(1, JVal.str "docA"), (2, JVal.obj [("title", JVal.str "t"),
      ("properties", JVal.obj [("tags", JVal.obj [("properties", JVal.obj [])])])])])
    [("color", "string")] false
    ((create_new_schema_version
        (SchemaStore.mk [(1, JVal.str "docA"), (2, JVal.obj [("title", JVal.str "t"),
          ("properties", JVal.obj [("tags", JVal.obj [("properties", JVal.obj [])])])])])
        [("color", "string")] false).getD ((none, []), SchemaStore.mk [])).1
    ((create_new_schema_version
        (SchemaStore.mk [(1, JVal.str "docA"), (2, JVal.obj [("title", JVal.str "t"),
          ("properties", JVal.obj [("tags", JVal.obj [("properties", JVal.obj [])])])])])
        [("color", "string")] false).getD ((none, []), SchemaStore.mk [])).2
    (by rfl) 1 (JVal.str "docA") rfl

/-- C2 counterexample: the modelled write (`open(path, "w")` + `json.dump`)
succeeds on an already-persisted version and replaces its document: no
`ConflictError` is raised and the original bytes are gone, refuting the
claim as stated. -/
theorem c2_counterexample :
    load_schema (write_schema_file (SchemaStore.mk [(1, JVal.str "original")]) 1
      (JVal.str "replacement")) 1 = some (JVal.str "replacement") ∧
    JVal.str "replacement" ≠ JVal.str "original" := by
  refine ⟨rfl, ?_⟩
  intro h
  exact absurd (JVal.str.inj h) (by decide)

/-- C10: when every tag name of the registry already appears among the
current schema's declared tag properties, `create_new_schema_version`
returns `(None, [])` and leaves the store untouched — the registry's
inferred types are never compared against the declared types, so a type
change alone never triggers a new schema version (the witness exercises
exactly that: a declared `integer` tag re-inferred as `string`). -/
theorem c10_no_new_tags_no_version (st : SchemaStore) (reg : List (String × String))
    (check_only : Bool) (cur : Nat) (schema : JVal) (tp : List (String × JVal))
    (hlatest : get_latest_schema_version st = some cur)
    (hload : load_schema st cur = some schema)
    (hex : get_existing_tag_definitions schema = some (JVal.obj tp))
    (hall : ∀ p ∈ reg, ∃ q ∈ tp, q.1 = p.1) :
    create_new_schema_version st reg check_only = some ((none, []), st) := by
  have hchk : check_for_new_tags reg schema = some [] := by
    rw [check_for_new_tags, hex]
    simp only [Option.bind_eq_bind, Option.some_bind, newTagsLoop_obj, Option.some.injEq]
    rw [List.map_eq_nil_iff]
    rw [List.filter_eq_nil_iff]
    intro p hp
    obtain ⟨q, hq, hqp⟩ := hall p hp
    simp only [Bool.not_eq_true', Bool.not_eq_false]
    rw [List.any_eq_true]
    exact ⟨q, hq, by simp [hqp]⟩
  unfold create_new_schema_version
  rw [hlatest]
  simp only [Option.bind_eq_bind, Option.some_bind]
  rw [hload]
  simp only [Option.bind_eq_bind, Option.some_bind]
  rw [hchk]
  simp only [Option.bind_eq_bind, Option.some_bind, List.isEmpty_nil, if_true]
  rfl

theorem c10_no_new_tags_no_version_witness :
    create_new_schema_version
      (SchemaStore.mk [(1, JVal.obj [("properties", JVal.obj [("tags", JVal.obj [("properties",
        JVal.obj [("engine_count", JVal.obj [("type", JVal.str "integer")])])])])])])
      [("engine_count", "string")] false =
      some ((none, []),
        SchemaStore.mk [(1, JVal.obj [("properties", JVal.obj [("tags", JVal.obj [("properties",
          JVal.obj [("engine_count", JVal.obj [("type", JVal.str "integer")])])])])])]) :=
  c10_no_new_tags_no_version
    (SchemaStore.mk [(1, JVal.obj [("properties", JVal.obj [("tags", JVal.obj [("properties",
      JVal.obj [("engine_count", JVal.obj [("type", JVal.str "integer")])])])])])])
    [("engine_count", "string")] false 1
    (JVal.obj [("properties", JVal.obj [("tags", JVal.obj [("properties",
      JVal.obj [("engine_count", JVal.obj [("type", JVal.str "integer")])])])])])
    [("engine_count", JVal.obj [("type", JVal.str "integer")])]
    rfl rfl rfl
    (by
      intro p hp
      simp only [List.mem_singleton] at hp
      exact ⟨("engine_count", JVal.obj [("type", JVal.str "integer")]), by simp, by rw [hp]⟩)

/-- C6: the deep copy `json.loads(json.dumps(base_schema))` taken by the
Schema Generator (its returned document, which the rest of the generator
then mutates in place) is a structural deep copy sharing no mutable
substructure with the base document: the copy reads back as exactly the
base document's value, every address of the copied object graph is fresh
(allocated at or above the old allocator position), and mutating any such
fresh address — hence any in-place mutation of the returned document, the
generator's own title/tags writes included — leaves the base document's
value unchanged. -/
theorem c6_deep_copy_no_aliasing (h : Heap) (a fuel : Nat) (v : JVal)
    (hclosed : ClosedBelow h h.next) (ha : a < h.next)
    (hread : readVal fuel h a = some v) (h' : Heap) (r : Nat)
    (hcopy : json_roundtrip_copy fuel h a = some (h', r)) :
    readVal (heightJ v) h' r = some v ∧
    (∀ b ∈ collectAddrs (heightJ v) h' r, h.next ≤ b ∧ b < h'.next) ∧
    (∀ b n, h.next ≤ b → readVal fuel (setMem h' b n) a = some v) := by
  have halloc : allocVal h v = (h', r) := by
    rw [json_roundtrip_copy, hread] at hcopy
    simpa using hcopy
  have hsp := allocVal_span v h
  rw [halloc] at hsp
  obtain ⟨⟨hnext, hframe, hwin⟩, hr1, hr2⟩ := hsp
  have hrd : readVal (heightJ v) h' r = some v := by
    have := allocVal_read v h h' (fun x _ _ => by rw [halloc]) (heightJ v) (le_refl _)
    rw [halloc] at this
    exact this
  refine ⟨hrd, ?_, ?_⟩
  · intro b hb
    exact collectAddrs_bound (heightJ v) h' h.next h'.next hwin r hr1 hr2 b hb
  · intro b n hb
    apply readVal_frame fuel h (setMem h' b n) h.next a hclosed ha ?_ v hread
    intro x hx
    simp only [setMem]
    rw [if_neg (by omega)]
    exact hframe x hx

theorem c6_deep_copy_no_aliasing_witness :
    readVal (heightJ (JVal.obj [("x", JVal.int 7)]))
      (allocVal (Heap.mk 2 (fun a => if a = 0 then HNode.hobj [("x", 1)]
        else if a = 1 then HNode.hint 7 else HNode.hnull))
        (JVal.obj [("x", JVal.int 7)])).1
      (allocVal (Heap.mk 2 (fun a => if a = 0 then HNode.hobj [("x", 1)]
        else if a = 1 then HNode.hint 7 else HNode.hnull))
        (JVal.obj [("x", JVal.int 7)])).2 = some (JVal.obj [("x", JVal.int 7)]) ∧
    readVal 3 (setMem
      (allocVal (Heap.mk 2 (fun a => if a = 0 then HNode.hobj [("x", 1)]
        else if a = 1 then HNode.hint 7 else HNode.hnull))
        (JVal.obj [("x", JVal.int 7)])).1
      (allocVal (Heap.mk 2 (fun a => if a = 0 then HNode.hobj [("x", 1)]
        else if a = 1 then HNode.hint 7 else HNode.hnull))
        (JVal.obj [("x", JVal.int 7)])).2
      (HNode.hint 0)) 0 = some (JVal.obj [("x", JVal.int 7)]) := by
  obtain ⟨h1, h2, h3⟩ := c6_deep_copy_no_aliasing
    (Heap.mk 2 (fun a => if a = 0 then HNode.hobj [("x", 1)]
      else if a = 1 then HNode.hint 7 else HNode.hnull))
    0 3 (JVal.obj [("x", JVal.int 7)]) (by decide) (by decide) rfl
    (allocVal (Heap.mk 2 (fun a => if a = 0 then HNode.hobj [("x", 1)]
      else if a = 1 then HNode.hint 7 else HNode.hnull))
      (JVal.obj [("x", JVal.int 7)])).1
    (allocVal (Heap.mk 2 (fun a => if a = 0 then HNode.hobj [("x", 1)]
      else if a = 1 then HNode.hint 7 else HNode.hnull))
      (JVal.obj [("x", JVal.int 7)])).2
    rfl
  exact ⟨h1, h3 _ (HNode.hint 0) (by decide)⟩

/-- C7 (amended): the generated schema's tags property carries the
propertyNames pattern `^[a-z][a-z0-9_]\x7b0,63\x7d$`, whose full-match
semantics accepts exactly the names whose first character is a lowercase
letter followed by at most 63 characters from lowercase letters, digits
and underscore (so length 1 to 64, but the first character is never a
digit or an underscore — strictly fewer names than the claimed "lowercase
alphanumeric and underscores, length 1-64"); `additionalProperties`
remains the reference to the generic tag-value definition. -/
theorem c7_pattern_exact (base : JVal) (reg : List (String × String)) (ver : Nat)
    (schema : JVal) (hgen : generate_new_schema base reg ver = some schema) :
    (((jpath schema "properties").bind (fun t => jpath t "tags")).bind
      (fun t => jpath t "propertyNames")).bind (fun t => jpath t "pattern") =
      some (JVal.str tag_name_pattern) ∧
    ((jpath schema "properties").bind (fun t => jpath t "tags")).bind
      (fun t => jpath t "additionalProperties") =
      some (JVal.obj [("$ref", JVal.str "#/$defs/tagValue")]) ∧
    (∀ s : String, tag_pattern_accepts s = true ↔
      (1 ≤ s.toList.length ∧ s.toList.length ≤ 64 ∧
        (∀ c ∈ s.toList, isTagChar c = true) ∧
        ∀ c ∈ s.toList.take 1, isLowerAZ c = true)) := by
  obtain ⟨fs, props, hbase, hk, hs⟩ := generate_new_schema_some base reg ver schema hgen
  subst hs
  refine ⟨?_, ?_, ?_⟩
  · simp only [jpath, getKey?_setKey_self, Option.some_bind]
    rfl
  · simp only [jpath, getKey?_setKey_self, Option.some_bind]
    rfl
  · intro s
    cases hl : s.toList with
    | nil =>
      have hd : s.data = [] := hl
      simp [tag_pattern_accepts, String.toList, hd, hl]
    | cons c rest =>
      have hd : s.data = c :: rest := hl
      simp only [tag_pattern_accepts, String.toList, hd, hl, Bool.and_eq_true,
        List.all_eq_true, decide_eq_true_eq, List.length_cons, List.take_succ_cons,
        List.take_zero]
      constructor
      · rintro ⟨⟨hlz, hall⟩, hlen⟩
        refine ⟨by omega, by omega, ?_, ?_⟩
        · intro x hx
          rcases List.mem_cons.mp hx with rfl | hx
          · simp [isTagChar, hlz]
          · exact hall x hx
        · intro x hx
          simp only [List.mem_singleton] at hx
          rw [hx]
          exact hlz
      · rintro ⟨_, hlen, hall, hhead⟩
        refine ⟨⟨?_, ?_⟩, by omega⟩
        · exact hhead c (by simp)
        · intro x hx
          exact hall x (List.mem_cons_of_mem _ hx)

theorem c7_pattern_exact_witness :
    (((jpath ((generate_new_schema (JVal.obj [("title", JVal.str "t"),
        ("properties", JVal.obj [])]) [] 2).getD JVal.null) "properties").bind
      (fun t => jpath t "tags")).bind (fun t => jpath t "propertyNames")).bind
      (fun t => jpath t "pattern") = some (JVal.str tag_name_pattern) :=
  (c7_pattern_exact (JVal.obj [("title", JVal.str "t"), ("properties", JVal.obj [])])
    [] 2
    ((generate_new_schema (JVal.obj [("title", JVal.str "t"),
      ("properties", JVal.obj [])]) [] 2).getD JVal.null)
    (by rfl)).1

/-- C7 counterexample: the generated schema carries the pattern
`^[a-z][a-z0-9_]\x7b0,63\x7d$`, and the name `"_a"` — made of lowercase
alphanumeric characters and underscores, length 2, so inside the family
the claim asserts the pattern accepts — does not match it (the first
character must be a letter): the claimed "accepts exactly" fails. -/
theorem c7_counterexample :
    ((((generate_new_schema (JVal.obj [("title", JVal.str "t"),
        ("properties", JVal.obj [])]) [] 2).bind (fun s => jpath s "properties")).bind
      (fun t => jpath t "tags")).bind (fun t => jpath t "propertyNames")).bind
      (fun t => jpath t "pattern") = some (JVal.str tag_name_pattern) ∧
    claimTagShape "_a" ∧
    tag_pattern_accepts "_a" = false := by
  refine ⟨rfl, ⟨by decide, by decide, by decide⟩, rfl⟩

/-- C9: the generated schema's `tags.properties` object has exactly one
entry per tag name of the registry (its keys are a permutation of the
registry's keys), listed in ascending lexicographic order of tag name;
consequently two registries that are equal as name-to-type mappings yield
identical generated schemas regardless of insertion order. -/
theorem c9_sorted_tag_properties (base : JVal) (reg : List (String × String)) (ver : Nat)
    (schema : JVal) (hgen : generate_new_schema base reg ver = some schema)
    (hnd : (reg.map (fun p => p.1)).Nodup) :
    ∃ tp, ((jpath schema "properties").bind (fun t => jpath t "tags")).bind
        (fun t => jpath t "properties") = some (JVal.obj tp) ∧
      tp = (pySorted reg).map (fun p => (p.1, type_name_to_json_schema p.2)) ∧
      (tp.map (fun p => p.1)).Perm (reg.map (fun p => p.1)) ∧
      List.Sorted (fun a b : String => a ≤ b) (tp.map (fun p => p.1)) ∧
      ∀ reg₂, (reg₂.map (fun p => p.1)).Nodup →
        (∀ k, getKey? reg k = getKey? reg₂ k) →
        generate_new_schema base reg ver = generate_new_schema base reg₂ ver := by
  obtain ⟨fs, props, hbase, hk, hs⟩ := generate_new_schema_some base reg ver schema hgen
  subst hs
  have hkeys : (((pySorted reg).map (fun p => (p.1, type_name_to_json_schema p.2))).map
      (fun p => p.1)) = (pySorted reg).map (fun p => p.1) := by
    rw [List.map_map]
    rfl
  refine ⟨(pySorted reg).map (fun p => (p.1, type_name_to_json_schema p.2)),
    ?_, rfl, ?_, ?_, ?_⟩
  · simp only [jpath, getKey?_setKey_self, Option.some_bind]
    rfl
  · rw [hkeys]
    exact (List.perm_insertionSort pairLe reg).map (fun p => p.1)
  · rw [hkeys]
    have hsorted := List.sorted_insertionSort pairLe reg
    exact List.Pairwise.map (fun p => p.1)
      (fun a b hab => by
        rcases hab with hlt | ⟨heq, _⟩
        · exact le_of_lt hlt
        · exact le_of_eq heq)
      hsorted
  · intro reg₂ hnd₂ heq
    have hperm := assoc_perm_of_lookup_eq reg reg₂ hnd hnd₂ heq
    have hsortEq := pySorted_eq_of_perm reg reg₂ hperm
    unfold generate_new_schema
    rw [hsortEq]

theorem c9_sorted_tag_properties_witness :
    generate_new_schema (JVal.obj [("title", JVal.str "t"), ("properties", JVal.obj [])])
      [("b", "string"), ("a", "integer")] 2 =
    generate_new_schema (JVal.obj [("title", JVal.str "t"), ("properties", JVal.obj [])])
      [("a", "integer"), ("b", "string")] 2 := by
  obtain ⟨tp, _, _, _, _, hext⟩ := c9_sorted_tag_properties
    (JVal.obj [("title", JVal.str "t"), ("properties", JVal.obj [])])
    [("b", "string"), ("a", "integer")] 2
    ((generate_new_schema (JVal.obj [("title", JVal.str "t"), ("properties", JVal.obj [])])
      [("b", "string"), ("a", "integer")] 2).getD JVal.null)
    (by rfl) (by decide)
  apply hext [("a", "integer"), ("b", "string")] (by decide)
  intro k
  by_cases h1 : "b" = k
  · subst h1
    rfl
  · by_cases h2 : "a" = k
    · subst h2
      rfl
    · simp [getKey?, beq_iff_eq, h1, h2]
